import Mathlib

/-!
Verification development for the bidirectional-text layout engine specified
around `luni/src/main/native/java_text_Bidi.cpp`.

The C++ file is a thin JNI binding: the paragraph resolver, run counter and
visual reorderer it exposes live in the external ICU `ubidi` library, whose
source is not part of this repository.  Where a property is decided by that
missing code, the corresponding definition below is modelled from the spec
(each such definition's doc comment says so).  The loop of
`Bidi_ubidi_getRuns` and the null-array branch of `Bidi_ubidi_reorderVisual`
are in the repository source and are embedded directly from it.
-/

namespace Bidi

/-- Directional classification of a character, supplied by the external
character-property provider (spec §6): strongly left-to-right, strongly
right-to-left, or neutral. -/
inductive CharClass
  | strongL
  | strongR
  | neutral
deriving DecidableEq

/-- Base paragraph direction (spec §4.1): LTR, RTL, or auto-detected from
the first strong character. -/
inductive BaseDirection
  | LTR
  | RTL
  | AUTO
deriving DecidableEq

/-- Error kinds of the engine (spec §7). -/
inductive BidiError
  | InvalidArgument
  | ResourceExhausted
  | Unsupported
deriving DecidableEq

/-- Modelled from the spec: AUTO base-direction detection
(`ubidi_setPara` with a default paragraph level is not in the repository).
"AUTO scans for the first character with strong directional type and adopts
its direction, defaulting to LTR if none found" (spec §4.1). -/
def autoBase (text : List CharClass) : Nat :=
  match text.find? (fun c => c ≠ CharClass.neutral) with
  | some CharClass.strongR => 1
  | _ => 0

/-- Modelled from the spec: the paragraph embedding level induced by a base
direction (even = LTR, odd = RTL, spec glossary). -/
def baseOf (text : List CharClass) (dir : BaseDirection) : Nat :=
  match dir with
  | BaseDirection.LTR => 0
  | BaseDirection.RTL => 1
  | BaseDirection.AUTO => autoBase text

/-- Modelled from the spec: implicit level of one character over base level
`base` (spec §4.1 stage 4 and §8 scenarios): a strong LTR character gets the
smallest even level `>= base`, a strong RTL character the smallest odd level
`>= base`, a neutral character the base level.  The weak/neutral tie-break
tables of UAX #9 are outside the spec (spec §9 flags them as requiring
primary-source lookup) and are not modelled. -/
def charLevel (base : Nat) : CharClass → Nat
  | CharClass.strongL => base + base % 2
  | CharClass.strongR => base + (1 - base % 2)
  | CharClass.neutral => base

/-- A resolved paragraph (spec §3): the classified input text, the resolved
per-character embedding levels (one per character), and the base level. -/
structure Paragraph where
  text : List CharClass
  levels : List Nat
  baseLevel : Nat
  hlen : text.length = levels.length

/-- Modelled from the spec: `resolveParagraph` (the wrapped `ubidi_setPara`
implementation is not in the repository).  Spec §4.1: an externally supplied
level array must match the text length, otherwise `InvalidArgument`; when
supplied, the external levels are respected as explicit overrides; empty
text succeeds trivially.  Explicit embedding control characters (the source
of `ResourceExhausted`) are not modelled. -/
def resolveParagraph (text : List CharClass) (dir : BaseDirection)
    (ext : Option (List Nat)) : Except BidiError Paragraph :=
  let base := baseOf text dir
  match ext with
  | none =>
      Except.ok ⟨text, text.map (charLevel base), base,
        (List.length_map text (charLevel base)).symm⟩
  | some lv =>
      if h : lv.length = text.length then
        Except.ok ⟨text, lv, base, h.symm⟩
      else
        Except.error BidiError.InvalidArgument

/-- A run (spec §3): a maximal contiguous range `[start, limit)` of one
embedding level.  Mirrors the managed `Bidi$Run(start, limit, level)`
constructed by `Bidi_ubidi_getRuns`. -/
structure BidiRun where
  start : Nat
  limit : Nat
  level : Nat
deriving DecidableEq

/-- Modelled from the spec: tail of the single left-to-right scan of the run
extractor (`ubidi_countRuns` is not in the repository).  `first` is the start
index of the run currently open, `next` the index just past the characters
consumed so far, `cur` the level of the open run.  A run boundary occurs
wherever the level value changes (spec §4.3). -/
def runsOfGo (first next cur : Nat) : List Nat → List BidiRun
  | [] => [⟨first, next, cur⟩]
  | b :: rest =>
      if b = cur then
        runsOfGo first (next + 1) cur rest
      else
        ⟨first, next, cur⟩ :: runsOfGo next (next + 1) b rest

/-- Modelled from the spec: `runsOf(levels)`, the deterministic
left-to-right scan converting a level array into maximal contiguous runs of
equal level (spec §4.3). -/
def runsOf (levels : List Nat) : List BidiRun :=
  match levels with
  | [] => []
  | a :: rest => runsOfGo 0 1 a rest

/-- Modelled from the spec: `countRuns`, the number of runs of the level
array (spec §4.3, wrapping the missing `ubidi_countRuns`). -/
def countRuns (levels : List Nat) : Nat :=
  (runsOf levels).length

/-- The number of positions where the level array's value changes, i.e. the
number of adjacent pairs with distinct values.  This is the spec's notion of
"boundary count", stated independently of the run extractor. -/
def changes : List Nat → Nat
  | [] => 0
  | [_] => 0
  | a :: b :: rest => (if a = b then 0 else 1) + changes (b :: rest)

/-- Modelled from the spec: reverse the sub-range `[i, i+len)` of a
permutation array, leaving the rest in place (the reversal primitive of the
UAX #9 L2 reordering, spec §4.4). -/
def reverseSlice (p : List Nat) (i len : Nat) : List Nat :=
  p.take i ++ ((p.drop i).take len).reverse ++ p.drop (i + len)

/-- Modelled from the spec: scan for the maximal contiguous ranges of the
level array whose values are `>= L`, as `(start, length)` pairs.  `i` is the
index of the scan head and `cur` the start of the currently open range, if
any (spec §4.4). -/
def segmentsGo (L i : Nat) (cur : Option Nat) : List Nat → List (Nat × Nat)
  | [] =>
      match cur with
      | some s => [(s, i - s)]
      | none => []
  | a :: rest =>
      if L ≤ a then
        segmentsGo L (i + 1) (some (cur.getD i)) rest
      else
        match cur with
        | some s => (s, i - s) :: segmentsGo L (i + 1) none rest
        | none => segmentsGo L (i + 1) none rest

/-- Modelled from the spec: the maximal contiguous ranges of `levels` with
value `>= L` (spec §4.4). -/
def segments (L : Nat) (levels : List Nat) : List (Nat × Nat) :=
  segmentsGo L 0 none levels

/-- Modelled from the spec: one pass of the L2 reordering at threshold `L`:
every maximal contiguous range of levels `>= L` has the corresponding
sub-range of the current permutation reversed (spec §4.4). -/
def onePass (L : Nat) (levels perm : List Nat) : List Nat :=
  (segments L levels).foldl (fun p s => reverseSlice p s.1 s.2) perm

/-- Modelled from the spec: the passes of the L2 reordering, from threshold
`L` down to threshold 1 (spec §4.4: "for each maximal run of levels >= L for
L from max level down to 1, reverse that sub-range of the current
permutation"). -/
def runPasses (levels : List Nat) : Nat → List Nat → List Nat
  | 0, perm => perm
  | L + 1, perm => runPasses levels L (onePass (L + 1) levels perm)

/-- The maximum level value occurring in a level array (0 when empty). -/
def maxLevel (levels : List Nat) : Nat :=
  levels.foldr max 0

/-- Modelled from the spec: `reorderVisual(levels)`, the pure visual
reordering (the wrapped `ubidi_reorderVisual` is not in the repository):
initialize the permutation as the identity, then run the reversal passes
from the maximum level down to 1 (spec §4.4). -/
def reorderVisual (levels : List Nat) : List Nat :=
  runPasses levels (maxLevel levels) (List.range levels.length)

/-- A line (spec §3): an independently owned, self-contained copy of the
level data of a sub-range of a resolved paragraph, with the paragraph's base
level.  It holds no reference back to its source paragraph. -/
structure Line where
  levels : List Nat
  baseLevel : Nat
deriving DecidableEq

/-- Modelled from the spec: boundary re-resolution of a line, processing the
reversed `(class, level)` sequence: the trailing run of neutral characters is
re-resolved to the line's base level, everything before it keeps its
paragraph level (spec §4.2). -/
def fixRev (base : Nat) : List (CharClass × Nat) → List (CharClass × Nat)
  | [] => []
  | (c, l) :: rest =>
      if c = CharClass.neutral then
        (c, base) :: fixRev base rest
      else
        (c, l) :: rest

/-- Modelled from the spec: the resolved levels of a line carved from
classified characters `cls` with paragraph levels `lv`, after re-resolving
the trailing neutral run against the line's own end-of-line boundary
(spec §4.2). -/
def lineLevels (base : Nat) (cls : List CharClass) (lv : List Nat) : List Nat :=
  ((fixRev base (cls.zip lv).reverse).reverse).map Prod.snd

/-- Modelled from the spec: `sliceLine(paragraph, start, limit)` (the
wrapped `ubidi_setLine` is not in the repository).  Succeeds when
`0 <= start <= limit <= paragraph.length`, with `start == limit` a valid
zero-length line (the spec's §8 scenario documents that choice); signals
`InvalidArgument` otherwise.  Copies the levels of `[start, limit)` and
re-resolves the trailing neutral run (spec §4.2). -/
def sliceLine (p : Paragraph) (start limit : Nat) : Except BidiError Line :=
  if start ≤ limit ∧ limit ≤ p.levels.length then
    Except.ok
      ⟨lineLevels p.baseLevel ((p.text.drop start).take (limit - start))
        ((p.levels.drop start).take (limit - start)), p.baseLevel⟩
  else
    Except.error BidiError.InvalidArgument

/-- The engine's store of live structures: paragraph handles (`none` once
closed) and line handles.  This models the native-handle lifecycle the
wrapper exposes (`ubidi_open`/`ubidi_close`/`ubidi_setLine`), with a handle
being an index into the store. -/
structure EngineState where
  paragraphs : List (Option Paragraph)
  lines : List Line

/-- Destroy the paragraph behind handle `h` (the wrapper's
`Bidi_ubidi_close`). -/
def closeParagraph (st : EngineState) (h : Nat) : EngineState :=
  { st with paragraphs := st.paragraphs.set h none }

/-- Re-resolve the paragraph behind handle `h` over new inputs (the
wrapper's `Bidi_ubidi_setPara` on an existing handle); on resolution failure
the store is unchanged. -/
def reParagraph (st : EngineState) (h : Nat) (text : List CharClass)
    (dir : BaseDirection) (ext : Option (List Nat)) : EngineState :=
  match resolveParagraph text dir ext with
  | Except.ok p => { st with paragraphs := st.paragraphs.set h (some p) }
  | Except.error _ => st

/-- Modelled from the spec: create a line from the paragraph behind handle
`ph` (the wrapper's `Bidi_ubidi_setLine` returning a fresh native handle).
The line stores its own copy of the sliced level data (spec §4.2, §5). -/
def newLine (st : EngineState) (ph start limit : Nat) :
    Except BidiError (EngineState × Nat) :=
  match st.paragraphs.get? ph with
  | some (some p) =>
      match sliceLine p start limit with
      | Except.ok ln => Except.ok ({ st with lines := st.lines ++ [ln] }, st.lines.length)
      | Except.error e => Except.error e
  | _ => Except.error BidiError.InvalidArgument

/-- Query the length of the line behind handle `lh`. -/
def lineLengthQ (st : EngineState) (lh : Nat) : Option Nat :=
  (st.lines.get? lh).map (fun ln => ln.levels.length)

/-- Query the resolved levels of the line behind handle `lh`. -/
def lineLevelsQ (st : EngineState) (lh : Nat) : Option (List Nat) :=
  (st.lines.get? lh).map (fun ln => ln.levels)

/-- Query the runs of the line behind handle `lh`. -/
def lineRunsQ (st : EngineState) (lh : Nat) : Option (List BidiRun) :=
  (st.lines.get? lh).map (fun ln => runsOf ln.levels)

/-- Query the visual reordering of the line behind handle `lh`. -/
def lineReorderQ (st : EngineState) (lh : Nat) : Option (List Nat) :=
  (st.lines.get? lh).map (fun ln => reorderVisual ln.levels)

/-- The run-collection loop of `Bidi_ubidi_getRuns` (embedded from the
repository source): starting from `start`, it performs `count` calls of
`ubidi_getLogicalRun` — modelled as the function `f` from a start index to
the `(limit, level)` pair it stores through its out-parameters — builds a
`Run(start, limit, level)` for each, and continues from `start = limit`. -/
def getRunsFrom (f : Nat → Nat × Nat) : Nat → Nat → List BidiRun
  | 0, _ => []
  | count + 1, start =>
      let r := f start
      ⟨start, r.1, r.2⟩ :: getRunsFrom f count r.1

/-- `Bidi_ubidi_getRuns` (embedded from the repository source): the loop of
`getRunsFrom` started at `start = 0`, run `count = ubidi_countRuns` times. -/
def getRuns (f : Nat → Nat × Nat) (count : Nat) : List BidiRun :=
  getRunsFrom f count 0

/-- `Bidi_ubidi_reorderVisual` (embedded from the repository source): when
the incoming level array is null (`ScopedByteArrayRO.get() == NULL`) the
function returns null; otherwise it fills an index map of `length` entries
through `ubidi_reorderVisual` over the first `length` levels and returns
it. -/
def reorderVisualJNI (javaLevels : Option (List Nat)) (length : Nat) :
    Option (List Nat) :=
  match javaLevels with
  | none => none
  | some lv => some (reorderVisual (lv.take length))

/-- Helper: the run scan `runsOfGo` emits one run per boundary of the
remaining input, plus one for the run currently open. -/
theorem runsOfGo_length (l : List Nat) : ∀ first next cur,
    (runsOfGo first next cur l).length = changes (cur :: l) + 1 := by
  induction l with
  | nil => intro first next cur; simp [runsOfGo, changes]
  | cons b rest ih =>
      intro first next cur
      by_cases hb : b = cur
      · subst hb
        simp [runsOfGo, changes, ih]
      · simp [runsOfGo, hb, changes, Ne.symm hb, ih,
          Nat.add_comm, Nat.add_left_comm]

/-- Claim C2: for every level array, `countRuns` equals the number of
positions where the level value changes plus 1 when the array is nonempty,
and 0 when it is empty. -/
theorem countRuns_eq_changes (l : List Nat) :
    countRuns l = if l = [] then 0 else changes l + 1 := by
  cases l with
  | nil => rfl
  | cons a rest => simp [countRuns, runsOf, runsOfGo_length]

/-- Claim C3: resolving any classified text as a paragraph with AUTO base
direction succeeds, and the resolved level array has the text's length. -/
theorem resolveParagraph_auto_length (text : List CharClass) :
    ∃ p, resolveParagraph text BaseDirection.AUTO none = Except.ok p ∧
      p.levels.length = text.length := by
  exact ⟨_, rfl, List.length_map text _⟩

/-- Claim C4: supplying an external embedding-level array whose length
differs from the text's length makes paragraph resolution signal
`InvalidArgument`, for every text and base direction. -/
theorem resolveParagraph_mismatch (text : List CharClass)
    (dir : BaseDirection) (lv : List Nat) (h : lv.length ≠ text.length) :
    resolveParagraph text dir (some lv) =
      Except.error BidiError.InvalidArgument := by
  simp [resolveParagraph, h]

/-- Concrete witness for `resolveParagraph_mismatch`: a one-entry level
array against the empty text. -/
theorem resolveParagraph_mismatch_witness :
    [(0 : Nat)].length ≠ ([] : List CharClass).length ∧
      resolveParagraph [] BaseDirection.LTR (some [0]) =
        Except.error BidiError.InvalidArgument :=
  ⟨by decide, resolveParagraph_mismatch [] BaseDirection.LTR [0] (by decide)⟩

/-- Claim C8: resolving the empty text succeeds for every base direction,
with an empty level array and zero runs. -/
theorem resolveParagraph_empty (dir : BaseDirection) :
    ∃ p, resolveParagraph [] dir none = Except.ok p ∧
      p.levels = [] ∧ countRuns p.levels = 0 := by
  exact ⟨_, rfl, rfl, rfl⟩

/-- Helper: the all-zero level array has maximum level 0. -/
theorem maxLevel_replicate_zero (n : Nat) :
    maxLevel (List.replicate n 0) = 0 := by
  induction n with
  | zero => rfl
  | succ n ih => simpa [maxLevel, List.replicate_succ] using ih

/-- Claim C7: `reorderVisual` on the all-zero level array of any length is
the identity permutation. -/
theorem reorderVisual_identity (n : Nat) :
    reorderVisual (List.replicate n 0) = List.range n := by
  simp [reorderVisual, maxLevel_replicate_zero, runPasses]

/-- Claim C10: `Bidi_ubidi_reorderVisual` returns null when the incoming
level array is null, whatever the requested length. -/
theorem reorderVisualJNI_null (length : Nat) :
    reorderVisualJNI none length = none := rfl

/-- Helper: reversing a sub-range of a list is a permutation of the list. -/
theorem reverseSlice_perm (p : List Nat) (i len : Nat) :
    List.Perm (reverseSlice p i len) p := by
  have h1 : List.Perm (reverseSlice p i len)
      (p.take i ++ ((p.drop i).take len ++ p.drop (i + len))) := by
    unfold reverseSlice
    rw [List.append_assoc]
    exact List.Perm.append_left _
      (List.Perm.append (List.reverse_perm _) (List.Perm.refl _))
  have h2 : p.take i ++ ((p.drop i).take len ++ p.drop (i + len)) = p := by
    rw [List.drop_take_append_drop, List.take_append_drop]
  rw [h2] at h1
  exact h1

/-- Helper: folding sub-range reversals over any segment list permutes. -/
theorem foldl_reverseSlice_perm (segs : List (Nat × Nat)) : ∀ p : List Nat,
    List.Perm (segs.foldl (fun q s => reverseSlice q s.1 s.2) p) p := by
  induction segs with
  | nil => intro p; exact List.Perm.refl p
  | cons s rest ih =>
      intro p
      exact (ih (reverseSlice p s.1 s.2)).trans (reverseSlice_perm p s.1 s.2)

/-- Helper: one reordering pass permutes the permutation array. -/
theorem onePass_perm (L : Nat) (levels p : List Nat) :
    List.Perm (onePass L levels p) p :=
  foldl_reverseSlice_perm (segments L levels) p

/-- Helper: the full cascade of reordering passes permutes the array. -/
theorem runPasses_perm (levels : List Nat) : ∀ (L : Nat) (p : List Nat),
    List.Perm (runPasses levels L p) p := by
  intro L
  induction L with
  | zero => intro p; exact List.Perm.refl p
  | succ n ih =>
      intro p
      exact (ih (onePass (n + 1) levels p)).trans (onePass_perm (n + 1) levels p)

/-- Claim C1: for every level array, `reorderVisual` returns a bijection on
`[0, n)`: the output has the input's length and its sorted values are
exactly `0, 1, ..., n-1`. -/
theorem reorderVisual_bijection (levels : List Nat) :
    (reorderVisual levels).length = levels.length ∧
    (reorderVisual levels).mergeSort = List.range levels.length := by
  have hp : List.Perm (reorderVisual levels) (List.range levels.length) :=
    runPasses_perm levels (maxLevel levels) (List.range levels.length)
  refine ⟨by simpa using hp.length_eq, ?_⟩
  exact List.eq_of_perm_of_sorted ((List.mergeSort_perm _ _).trans hp)
    (List.sorted_mergeSort' _) (List.sorted_le_range _)

/-- Helper: trailing-boundary re-resolution keeps the length. -/
theorem fixRev_length (base : Nat) (l : List (CharClass × Nat)) :
    (fixRev base l).length = l.length := by
  induction l with
  | nil => rfl
  | cons a rest ih =>
      obtain ⟨c, lv⟩ := a
      by_cases hc : c = CharClass.neutral <;> simp [fixRev, hc, ih]

/-- Helper: the resolved levels of a line are as long as the shorter of the
sliced class and level sequences. -/
theorem lineLevels_length (base : Nat) (cls : List CharClass) (lv : List Nat) :
    (lineLevels base cls lv).length = min cls.length lv.length := by
  simp [lineLevels, fixRev_length]

/-- Claim C5: slicing a line out of a resolved paragraph of length `n`
succeeds exactly when `0 <= start <= limit <= n` — with `start == limit`
yielding a valid zero-length line — and signals `InvalidArgument`
otherwise. -/
theorem sliceLine_ok_iff (p : Paragraph) (s l : Nat) :
    (s ≤ l ∧ l ≤ p.levels.length →
      ∃ ln, sliceLine p s l = Except.ok ln ∧ ln.levels.length = l - s) ∧
    (¬(s ≤ l ∧ l ≤ p.levels.length) →
      sliceLine p s l = Except.error BidiError.InvalidArgument) := by
  constructor
  · intro h
    unfold sliceLine
    rw [if_pos h]
    refine ⟨_, rfl, ?_⟩
    have hlen := p.hlen
    simp [lineLevels_length]
    omega
  · intro h
    unfold sliceLine
    rw [if_neg h]

/-- Concrete witness for `sliceLine_ok_iff`: an out-of-order range on a
one-character paragraph is rejected. -/
theorem sliceLine_ok_iff_witness :
    sliceLine (Paragraph.mk [CharClass.strongL] [0] 0 rfl) 2 1 =
      Except.error BidiError.InvalidArgument :=
  (sliceLine_ok_iff (Paragraph.mk [CharClass.strongL] [0] 0 rfl) 2 1).2
    (by decide)

/-- Claim C6: a line is self-contained: closing the source paragraph's
handle or re-paragraphing any handle leaves every line query — length,
levels, runs, visual reordering — unchanged, for every engine state. -/
theorem line_queries_stable (st : EngineState) (lh h : Nat)
    (text : List CharClass) (dir : BaseDirection) (ext : Option (List Nat)) :
    (lineLengthQ (closeParagraph st h) lh = lineLengthQ st lh ∧
     lineLevelsQ (closeParagraph st h) lh = lineLevelsQ st lh ∧
     lineRunsQ (closeParagraph st h) lh = lineRunsQ st lh ∧
     lineReorderQ (closeParagraph st h) lh = lineReorderQ st lh) ∧
    (lineLengthQ (reParagraph st h text dir ext) lh = lineLengthQ st lh ∧
     lineLevelsQ (reParagraph st h text dir ext) lh = lineLevelsQ st lh ∧
     lineRunsQ (reParagraph st h text dir ext) lh = lineRunsQ st lh ∧
     lineReorderQ (reParagraph st h text dir ext) lh = lineReorderQ st lh) := by
  have hr : (reParagraph st h text dir ext).lines = st.lines := by
    unfold reParagraph
    cases resolveParagraph text dir ext <;> rfl
  exact ⟨⟨rfl, rfl, rfl, rfl⟩, by
    simp [lineLengthQ, lineLevelsQ, lineRunsQ, lineReorderQ, hr]⟩

/-- Helper: the first run emitted by the `Bidi_ubidi_getRuns` loop from
`start` starts at `start`. -/
theorem getRunsFrom_head_start (f : Nat → Nat × Nat) (count start : Nat)
    (r : BidiRun) (h : (getRunsFrom f count start).head? = some r) :
    r.start = start := by
  cases count with
  | zero => simp [getRunsFrom] at h
  | succ n =>
      simp only [getRunsFrom, List.head?_cons, Option.some.injEq] at h
      rw [← h]

/-- Helper: in the `Bidi_ubidi_getRuns` loop, each emitted run starts where
the previous one ended. -/
theorem getRunsFrom_chain (f : Nat → Nat × Nat) : ∀ count start,
    List.Chain' (fun a b => b.start = a.limit) (getRunsFrom f count start) := by
  intro count
  induction count with
  | zero => intro start; simp [getRunsFrom]
  | succ n ih =>
      intro start
      show List.Chain' _
        (BidiRun.mk start (f start).1 (f start).2 :: getRunsFrom f n (f start).1)
      rw [List.chain'_cons']
      refine ⟨?_, ih _⟩
      intro b hb
      rw [Option.mem_def] at hb
      exact getRunsFrom_head_start f n (f start).1 b hb

/-- Claim C9: for every logical-run oracle and every positive run count, the
runs built by the `Bidi_ubidi_getRuns` loop partition the range contiguously
from the start: the first run starts at 0 and each later run starts at the
previous run's limit. -/
theorem getRuns_partitions (f : Nat → Nat × Nat) (count : Nat)
    (h : 0 < count) :
    (∃ r rest, getRuns f count = r :: rest ∧ r.start = 0) ∧
    List.Chain' (fun a b => b.start = a.limit) (getRuns f count) := by
  constructor
  · cases count with
    | zero => exact (Nat.lt_irrefl 0 h).elim
    | succ n => exact ⟨_, _, rfl, rfl⟩
  · exact getRunsFrom_chain f count 0

/-- Concrete witness for `getRuns_partitions`: two unit-length runs. -/
theorem getRuns_partitions_witness :
    (∃ r rest, getRuns (fun s => (s + 1, 0)) 2 = r :: rest ∧ r.start = 0) ∧
    List.Chain' (fun a b => b.start = a.limit) (getRuns (fun s => (s + 1, 0)) 2) :=
  getRuns_partitions (fun s => (s + 1, 0)) 2 (by decide)

end Bidi
